import Mathlib

/-!
# file_crawler.c : a shallow embedding and its verified properties

The C program `src/file_crawler.c` converts a shell wildcard into a regular
expression (`cvtPattern`), walks the directory trees given on the command line
(`processDirectory`) to fill a FIFO work queue, lets `CRAWLER_THREADS` worker
threads (`process`) drain the queue, each scanning one directory at a time
(`applyRe`) and inserting matching path names into a sorted set, and finally
prints the set.

Modelling conventions

* C strings are lists of characters (`Str`); the terminating NUL is implicit.
* The operating system is the record `Sys`: `opendir` maps a path to the
  entries `readdir` will deliver (or `none` when the open fails); the three
  Boolean fields say, per string, whether the allocation made by `strdup`,
  `ll_add` and `ts_add` succeeds.
* `processDirectory` is recursive on the file system; the embedding carries a
  recursion budget and answers `none` when it is exhausted.
* A `strcpy` or `sprintf` that would write past its 4096-byte buffer, an `atoi`
  result outside `int` and an array `cr_thr` of non-positive size have no
  defined behaviour in C: the embedding answers `none` (a thread of the
  concurrent model is then `overran` and never returns).
* `tsMutex` is a held/free flag.  A `pthread_mutex_lock` on a held flag never
  returns: the sequential functions answer `none`, a thread of the concurrent
  model cannot move.
* The constructors `re_create`, `ll_create`, `ts_create`, `ts_it_create` and
  `pthread_create` are assumed to succeed and the stack to be large enough for
  the recursion and for `cr_thr`; diagnostics on standard error are not
  modelled.
* Worker threads interleave at the granularity of one move: taking the head of
  the queue (under `llMutex`) and opening it, or one turn of the loop of
  `applyRe` (whose only shared access is the critical section of `tsMutex`).
-/

namespace FileCrawler

/-- C string, without its terminating NUL. -/
abbrev Str := List Char

/-! ## cvtPattern -/

/-- The `while (*bashpat != 0)` loop of `cvtPattern`: `p` holds the bytes written
so far, every `*p++ = x` appends `x`. -/
def cvtLoop : Str → Str → Str
  | [], p => p
  | c :: bashpat, p =>
    if c = '*' then cvtLoop bashpat (p ++ ['.', '*'])
    else if c = '.' then cvtLoop bashpat (p ++ ['\\', '.'])
    else if c = '?' then cvtLoop bashpat (p ++ ['.'])
    else cvtLoop bashpat (p ++ [c])

/-- The string `cvtPattern` leaves in `pattern`: `^` first, the loop, `$` last. -/
def cvtPattern (bashpat : Str) : Str :=
  cvtLoop bashpat ['^'] ++ ['$']

/-- Number of bytes `cvtPattern` stores through `p`, the final NUL included. -/
def bytesWritten (bashpat : Str) : Nat :=
  (cvtPattern bashpat).length + 1

/-- Size of `char pattern[4096]` in `main`. -/
def PATTERN_SIZE : Nat := 4096

/-- Translation of one wildcard character as the documentation of `cvtPattern`
words it: star gives dot-star, a period gives an escaped period, a question mark
gives a dot, anything else gives itself. -/
def globCharDoc (c : Char) : Str :=
  if c = '*' then ['.', '*']
  else if c = '.' then ['\\', '.']
  else if c = '?' then ['.']
  else [c]

/-- The expression the documentation promises for a whole wildcard. -/
def cvtPatternDoc (g : Str) : Str :=
  ['^'] ++ g.flatMap globCharDoc ++ ['$']

/-! ## Regular expressions and wildcards (semantics) -/

/-- One lexical item of a regular expression. -/
inductive ReItem where
  | any
  | lit (c : Char)
  | star
  | eol
deriving DecidableEq, Repr

/-- Modelled from the spec: the regular-expression engine behind `re.h` is not
part of the sources; the expression is read with the standard meaning of the
constructs the translation uses.  A backslash makes the next character a
literal, a dot is any one character, a star repeats the item before it, a
dollar sign at the very end is the end anchor. -/
def reLex : Str → List ReItem
  | [] => []
  | c :: re =>
    if c = '\\' then
      match re with
      | [] => [.lit '\\']
      | e :: re1 => .lit e :: reLex re1
    else if c = '.' then .any :: reLex re
    else if c = '*' then .star :: reLex re
    else if c = '$' ∧ re = [] then [.eol]
    else .lit c :: reLex re

/-- Whether a single item accepts a single character (a star or dollar sign that
is not in operator position stands for itself). -/
def ReItem.accepts : ReItem → Char → Bool
  | .any, _ => true
  | .lit c, x => x == c
  | .star, x => x == '*'
  | .eol, x => x == '$'

/-- Zero or more characters accepted by `acc`, then the continuation `k`. -/
def starLoop (acc : Char → Bool) (k : Str → Bool) : Str → Bool
  | [] => k []
  | c :: t => k (c :: t) || (acc c && starLoop acc k t)

/-- Modelled from the spec: match of an item list at the start of the text. -/
def matchHere : List ReItem → Str → Bool
  | [], _ => true
  | a :: .star :: rest, text => starLoop a.accepts (matchHere rest) text
  | [.eol], text => text.isEmpty
  | a :: rest, text =>
    match text with
    | [] => false
    | c :: t => a.accepts c && matchHere rest t

/-- Search for a match starting at any position of the text. -/
def searchFrom (items : List ReItem) : Str → Bool
  | [] => matchHere items []
  | c :: t => matchHere items (c :: t) || searchFrom items t

/-- Modelled from the spec: `re_compile` followed by `re_match`, for the
constructs above.  A leading caret anchors the match at the start. -/
def reMatch (re : Str) (text : Str) : Bool :=
  match re with
  | '^' :: re1 => matchHere (reLex re1) text
  | _ => searchFrom (reLex re) text

/-- Characters with a special meaning in regular expressions. -/
def isRegexMeta (c : Char) : Bool :=
  c ∈ ['\\', '^', '$', '.', '*', '+', '?', '(', ')', '[', ']', '{', '}', '|']

/-- Whole-name wildcard matching as the specification words it: a star stands
for zero or more arbitrary characters, a question mark for exactly one arbitrary
character, every other character for itself. -/
inductive GlobMatches : Str → Str → Prop
  | done : GlobMatches [] []
  | star (g pre s : Str) : GlobMatches g s → GlobMatches ('*' :: g) (pre ++ s)
  | one (g : Str) (c : Char) (s : Str) : GlobMatches g s → GlobMatches ('?' :: g) (c :: s)
  | self (g : Str) (c : Char) (s : Str) :
      c ≠ '*' → c ≠ '?' → GlobMatches g s → GlobMatches (c :: g) (c :: s)

/-- Items of the expression a wildcard stands for. -/
def globItems : Str → List ReItem
  | [] => []
  | c :: g =>
    if c = '*' then .any :: .star :: globItems g
    else if c = '?' then .any :: globItems g
    else .lit c :: globItems g

/-! ## The operating system -/

/-- The two fields of `struct dirent` the program reads. -/
structure Dirent where
  d_name : Str
  d_type : Nat
deriving DecidableEq, Repr

/-- Value of `DT_DIR` in `dirent.h`. -/
def DT_DIR : Nat := 4

/-- The directory test of both loops, `dent->d_type & DT_DIR`, read as a C
truth value. -/
def isDirType (d_type : Nat) : Bool :=
  (d_type &&& DT_DIR) != 0

/-- Environment of the program.  `opendir d` is the sequence of entries
`readdir` returns for `d`, or `none` when `opendir` returns `NULL`; the other
fields tell whether the allocation inside `strdup`, `ll_add` and `ts_add`
succeeds for the given string. -/
structure Sys where
  opendir : Str → Option (List Dirent)
  strdup : Str → Bool
  ll_alloc : Str → Bool
  ts_alloc : Str → Bool

/-- The test `strcmp(".", name) == 0 || strcmp("..", name) == 0`. -/
def isDotOrDotDot (name : Str) : Bool :=
  name = ['.'] ∨ name = ['.', '.']

/-- Size of the buffers `char d[4096]` and `char b[4096]`. -/
def PATH_SIZE : Nat := 4096

/-- The result of `sprintf(b, "%s/%s", d, name)`. -/
def joinPath (d name : Str) : Str :=
  d ++ '/' :: name

/-! ## The containers of `linkedlist.h` and `treeset.h` -/

/-- C library `strcmp` on unsigned bytes; only the sign of the result matters. -/
def strcmp : Str → Str → Int
  | [], [] => 0
  | [], _ :: _ => -1
  | _ :: _, [] => 1
  | a :: s, b :: t => if a = b then strcmp s t else if a < b then -1 else 1

/-- The shim `scmp` handed to `ts_create`. -/
def scmp (a b : Str) : Int :=
  strcmp a b

/-- Modelled from the spec: `ll_add` of `linkedlist.h` appends at the tail of
the FIFO queue and reports success; it fails only when its allocation fails. -/
def ll_add (alloc : Bool) (ll : List Str) (x : Str) : Option (List Str) :=
  if alloc then some (ll ++ [x]) else none

/-- Modelled from the spec: `ll_removeFirst` of `linkedlist.h` removes and
returns the head of the queue, or reports that the queue is empty. -/
def ll_removeFirst (ll : List Str) : Option (Str × List Str) :=
  match ll with
  | [] => none
  | x :: rest => some (x, rest)

/-- Insertion before the first element that compares greater. -/
def ts_insert (x : Str) : List Str → List Str
  | [] => [x]
  | y :: ts => if scmp x y < 0 then x :: y :: ts else y :: ts_insert x ts

/-- Whether the set holds an element that compares equal to `x`. -/
def ts_contains (ts : List Str) (x : Str) : Bool :=
  ts.any (fun y => scmp x y == 0)

/-- Modelled from the spec: `ts_add` of `treeset.h`, on the set listed in
iteration order.  An element already present leaves the set unchanged and
returns 0; otherwise the element is inserted in sorted position and 1 is
returned, unless the allocation fails (0, set unchanged). -/
def ts_add (alloc : Bool) (ts : List Str) (x : Str) : Bool × List Str :=
  if ts_contains ts x then (false, ts)
  else if alloc then (true, ts_insert x ts)
  else (false, ts)

/-! ## processDirectory -/

/-- The `while (status && (dent = readdir(dd)) != NULL)` loop of
`processDirectory`; `recurse` is the recursive call, `d` the prefix used by
`sprintf`.  The result is `status` and the queue, `none` when `sprintf` would
overrun `b` or a recursive call has no result. -/
def walkEntries (recurse : Str → List Str → Option (Bool × List Str)) (d : Str) :
    List Dirent → List Str → Option (Bool × List Str)
  | [], ll => some (true, ll)
  | dent :: rest, ll =>
    if isDotOrDotDot dent.d_name then walkEntries recurse d rest ll
    else if isDirType dent.d_type then
      if (joinPath d dent.d_name).length < PATH_SIZE then
        match recurse (joinPath d dent.d_name) ll with
        | none => none
        | some (status, ll1) =>
          if status then walkEntries recurse d rest ll1 else some (false, ll1)
      else none
    else walkEntries recurse d rest ll

/-- The function `processDirectory(dirname, ll, verbose)`; the diagnostic
output is not modelled, so `verbose` plays no part.  The first argument bounds
the depth of the recursion.  The result is `none` when the budget is exhausted
or `strcpy(d, dirname)` would overrun `d`. -/
def processDirectory (sys : Sys) : Nat → Str → List Str → Option (Bool × List Str)
  | 0, _, _ => none
  | fuel + 1, dirname, ll =>
    if dirname.length < PATH_SIZE then
      let len := dirname.length
      let d := if len > 1 ∧ dirname.getLast? = some '/' then dirname.dropLast else dirname
      match sys.opendir d with
      | none => some (true, ll)
      | some dents =>
        if sys.strdup d then
          match ll_add (sys.ll_alloc d) ll d with
          | none => some (false, ll)
          | some ll1 =>
            let d1 := if len = 1 ∧ d.head? = some '/' then [] else d
            walkEntries (processDirectory sys fuel) d1 dents ll1
        else some (false, ll)
    else none

/-- The discovery loop of `main` over `argv[2..]`: it stops (`goto done`) at
the first root for which `processDirectory` returns 0. -/
def discover (sys : Sys) (fuel : Nat) : List Str → List Str → Option (Bool × List Str)
  | [], ll => some (true, ll)
  | root :: roots, ll =>
    match processDirectory sys fuel root ll with
    | none => none
    | some (status, ll1) =>
      if status then discover sys fuel roots ll1 else some (false, ll1)

/-! ## applyRe and process -/

/-- How one turn of the `while` loop of `applyRe` ends: the loop goes on, the
loop is left with `status = 0`, the thread waits for `tsMutex` for ever, or
`sprintf` overruns `b`.  The first two carry the set and the mutex flag. -/
inductive Turn where
  | next (ts : List Str) (held : Bool)
  | stop (ts : List Str) (held : Bool)
  | blocked
  | overrun
deriving DecidableEq, Repr

/-- One turn of the `while` loop of `applyRe` for the entry `dent`. -/
def applyReEntry (sys : Sys) (regexp : Str → Bool) (dir : Str) (dent : Dirent)
    (ts : List Str) (held : Bool) : Turn :=
  if isDotOrDotDot dent.d_name then .next ts held
  else if !isDirType dent.d_type then
    if !regexp dent.d_name then .next ts held
    else
      let b := joinPath dir dent.d_name
      if b.length < PATH_SIZE then
        if sys.strdup b then
          if held then .blocked
          else
            match ts_add (sys.ts_alloc b) ts b with
            | (false, ts1) => .stop ts1 true
            | (true, ts1) => .next ts1 false
        else .stop ts held
      else .overrun
  else .next ts held

/-- The `while` loop of `applyRe`: `status`, set and mutex flag at the
`closedir`, or `none` when the thread blocks or `b` is overrun. -/
def applyReLoop (sys : Sys) (regexp : Str → Bool) (dir : Str) :
    List Dirent → List Str → Bool → Option (Bool × List Str × Bool)
  | [], ts, held => some (true, ts, held)
  | dent :: rest, ts, held =>
    match applyReEntry sys regexp dir dent ts held with
    | .next ts1 held1 => applyReLoop sys regexp dir rest ts1 held1
    | .stop ts1 held1 => some (false, ts1, held1)
    | .blocked => none
    | .overrun => none

/-- The function `applyRe(dir, regexp, ts)`, with the flag of `tsMutex` passed
in and out. -/
def applyRe (sys : Sys) (regexp : Str → Bool) (dir : Str) (ts : List Str) (held : Bool) :
    Option (Bool × List Str × Bool) :=
  match sys.opendir dir with
  | none => some (false, ts, held)
  | some dents => applyReLoop sys regexp dir dents ts held

/-- Shared variables of the worker threads: the queue `ll`, the set `ts` and the
flag of `tsMutex`. -/
structure Shared where
  ll : List Str
  ts : List Str
  tsMutex : Bool
deriving DecidableEq, Repr

/-- The function `process()` run by one thread with no other thread moving:
the shared variables when it returns, `none` when it blocks on `tsMutex` or a
scan has no defined result. -/
def process (sys : Sys) (regexp : Str → Bool) : List Str → List Str → Bool → Option Shared
  | [], ts, held => some ⟨[], ts, held⟩
  | sp :: ll, ts, held =>
    match applyRe sys regexp sp ts held with
    | none => none
    | some (stat, ts1, held1) =>
      if stat then process sys regexp ll ts1 held1 else some ⟨ll, ts1, held1⟩

/-! ## The worker pool -/

/-- Where a worker thread stands: about to call `ll_removeFirst`, inside the
loop of `applyRe` with the entries still to be read, returned, or past the end
of the buffer `b` (no defined behaviour from then on). -/
inductive Thread where
  | ready
  | scanning (dir : Str) (dents : List Dirent)
  | exited
  | overran
deriving DecidableEq, Repr

/-- One atomic move of a thread: taking the head of the queue and opening it,
one turn of the loop of `applyRe`, or leaving `applyRe` at the end of the
directory. -/
def stepThread (sys : Sys) (regexp : Str → Bool) (sh : Shared) : Thread → Shared × Thread
  | .exited => (sh, .exited)
  | .overran => (sh, .overran)
  | .ready =>
    match ll_removeFirst sh.ll with
    | none => (sh, .exited)
    | some (sp, rest) =>
      match sys.opendir sp with
      | none => (⟨rest, sh.ts, sh.tsMutex⟩, .exited)
      | some dents => (⟨rest, sh.ts, sh.tsMutex⟩, .scanning sp dents)
  | .scanning _ [] => (sh, .ready)
  | .scanning dir (dent :: dents) =>
    match applyReEntry sys regexp dir dent sh.ts sh.tsMutex with
    | .next ts1 held1 => (⟨sh.ll, ts1, held1⟩, .scanning dir dents)
    | .stop ts1 held1 => (⟨sh.ll, ts1, held1⟩, .exited)
    | .blocked => (sh, .scanning dir (dent :: dents))
    | .overrun => (sh, .overran)

/-- The shared variables together with all worker threads. -/
structure Pool where
  shared : Shared
  threads : List Thread
deriving DecidableEq, Repr

/-- Thread number `i` makes one move (no move if there is no such thread). -/
def step (sys : Sys) (regexp : Str → Bool) (p : Pool) (i : Nat) : Pool :=
  match p.threads.get? i with
  | none => p
  | some t =>
    let r := stepThread sys regexp p.shared t
    ⟨r.1, p.threads.set i r.2⟩

/-- The pool after the threads have moved in the order the schedule gives. -/
def run (sys : Sys) (regexp : Str → Bool) (sched : List Nat) (p : Pool) : Pool :=
  sched.foldl (step sys regexp) p

/-- Every `pthread_join` returns. -/
def allExited (p : Pool) : Bool :=
  p.threads.all (fun t => t = .exited)

/-! ## main -/

/-- C library `isspace` in the C locale. -/
def isSpace (c : Char) : Bool :=
  c = ' ' ∨ (9 ≤ c.toNat ∧ c.toNat ≤ 13)

/-- Digits read by `atoi`, most significant first, onto the value `acc`. -/
def atoiDigits : Str → Nat → Nat
  | [], acc => acc
  | c :: s, acc =>
    if c.isDigit then atoiDigits s (10 * acc + (c.toNat - 48)) else acc

/-- C library `atoi`: white space, an optional sign, decimal digits up to the
first other character.  This is the mathematical value read; whether it fits an
`int` is checked where the value is stored. -/
def atoi (s : Str) : Int :=
  match s.dropWhile isSpace with
  | '-' :: r => - (atoiDigits r 0 : Int)
  | '+' :: r => (atoiDigits r 0 : Int)
  | r => (atoiDigits r 0 : Int)

/-- Largest value of a C `int`. -/
def INT_MAX : Int := 2147483647

/-- The variable `int CRAWLER_THREADS` of `main`; the argument is the result of
`getenv`.  A value read by `atoi` that does not fit an `int` is not defined. -/
def CRAWLER_THREADS (env : Option Str) : Option Int :=
  match env with
  | some v => if -INT_MAX - 1 ≤ atoi v ∧ atoi v ≤ INT_MAX then some (atoi v) else none
  | none => some 2

/-- Number of elements of `pthread_t cr_thr[CRAWLER_THREADS]`, which is the
number of turns of `for (i = 0; i < CRAWLER_THREADS; i++) pthread_create`.  An
array of variable length must have a size greater than zero, so there is no
defined result for a value of zero or below. -/
def spawned (env : Option Str) : Option Nat :=
  match CRAWLER_THREADS env with
  | some n => if 0 < n then some n.toNat else none
  | none => none

/-- The pool right after the `pthread_create` loop. -/
def initPool (n : Nat) (ll : List Str) : Pool :=
  ⟨⟨ll, [], false⟩, List.replicate n .ready⟩

/-- The lines `main` writes on standard output.  `compile` stands for
`re_compile` and `re_match`, `env` for `getenv("CRAWLER_THREADS")`, `fuel`
bounds the recursion of the discovery, `sched` is the order in which the threads
move.  The result is `none` when the run is not defined: the array `cr_thr` has
no valid size, the pattern or a path overruns its buffer, the recursion budget
is exhausted, or some thread has not returned at the end of the schedule. -/
def main (sys : Sys) (compile : Str → Option (Str → Bool)) (env : Option Str)
    (argv : List Str) (fuel : Nat) (sched : List Nat) : Option (List Str) :=
  match spawned env with
  | none => none
  | some n =>
    match argv with
    | _ :: bashpat :: dirs =>
      if bytesWritten bashpat ≤ PATTERN_SIZE then
        match compile (cvtPattern bashpat) with
        | none => some []
        | some regexp =>
          match discover sys fuel (if dirs = [] then [['.']] else dirs) [] with
          | none => none
          | some (false, _) => some []
          | some (true, ll) =>
            let p := run sys regexp sched (initPool n ll)
            if allExited p then some p.shared.ts else none
      else none
    | _ => some []

/-! ## Concrete environments used by the instances below -/

/-- Entry of a regular file (`DT_REG`). -/
def regularFile (name : String) : Dirent := ⟨name.toList, 8⟩

/-- Entry of a directory (`DT_DIR`). -/
def directory (name : String) : Dirent := ⟨name.toList, 4⟩

/-- A system in which no allocation fails. -/
def sysOf (opendir : Str → Option (List Dirent)) : Sys :=
  ⟨opendir, fun _ => true, fun _ => true, fun _ => true⟩

/-- The tree `root/{a.c, b.txt, sub/{c.c}}`. -/
def treeSys : Sys :=
  sysOf fun p =>
    if p = "root".toList then
      some [directory ".", directory "..", regularFile "a.c", regularFile "b.txt",
        directory "sub"]
    else if p = "root/sub".toList then
      some [directory ".", directory "..", regularFile "c.c"]
    else none

/-- A directory `d` with the two regular files `a.c` and `b.c`. -/
def twoFileSys : Sys :=
  sysOf fun p =>
    if p = "d".toList then some [regularFile "a.c", regularFile "b.c"] else none

/-- A directory `d` with a socket `x.c` (`DT_SOCK` = 12), a block device `y.c`
(`DT_BLK` = 6) and a regular file `z.c`. -/
def socketSys : Sys :=
  sysOf fun p =>
    if p = "d".toList then some [⟨"x.c".toList, 12⟩, ⟨"y.c".toList, 6⟩, regularFile "z.c"]
    else none

/-- A path with one trailing slash removed; a path of length 1 is kept. -/
def stripSlash (p : Str) : Str :=
  if p.length > 1 ∧ p.getLast? = some '/' then p.dropLast else p

/-- Listings of the children classified as directories, one after the other;
`listDir` lists one child, `parent` is the path the child names are appended
to. -/
def listKids (listDir : Str → Option (List Str)) (parent : Str) :
    List Dirent → Option (List Str)
  | [] => some []
  | dent :: rest =>
    if isDotOrDotDot dent.d_name ∨ isDirType dent.d_type = false then
      listKids listDir parent rest
    else
      match listDir (joinPath parent dent.d_name), listKids listDir parent rest with
      | some own, some others => some (own ++ others)
      | _, _ => none

/-- Pre-order listing in the words of the specification: a path that cannot be
opened contributes nothing; otherwise its stripped path comes first, followed
by the listing of each child directory under parent, slash, name.  The result
is `none` when the tree is deeper than the first argument. -/
def listingClaimed (sys : Sys) : Nat → Str → Option (List Str)
  | 0, _ => none
  | depth + 1, p =>
    match sys.opendir (stripSlash p) with
    | none => some []
    | some dents =>
      (listKids (listingClaimed sys depth) (stripSlash p) dents).map (stripSlash p :: ·)

/-- Pre-order listing with the special case of the program: below the path `/`
itself the children are named slash, name (no doubled slash). -/
def listing (sys : Sys) : Nat → Str → Option (List Str)
  | 0, _ => none
  | depth + 1, p =>
    match sys.opendir (stripSlash p) with
    | none => some []
    | some dents =>
      (listKids (listing sys depth) (if p = ['/'] then [] else stripSlash p) dents).map
        (stripSlash p :: ·)

/-- Concatenation of the listings of the roots, in argument order. -/
def listingRoots (sys : Sys) (depth : Nat) : List Str → Option (List Str)
  | [] => some []
  | root :: roots =>
    match listing sys depth root, listingRoots sys depth roots with
    | some own, some others => some (own ++ others)
    | _, _ => none

/-- Names of the entries `processDirectory` calls itself on. -/
def kidNames (dents : List Dirent) : List Str :=
  (dents.filter (fun dent => !isDotOrDotDot dent.d_name && isDirType dent.d_type)).map
    (fun dent => dent.d_name)

/-- The child directories of one directory are named as a file system names
them: pairwise distinct, non-empty, without a slash. -/
abbrev wellNamed (dents : List Dirent) : Prop :=
  (kidNames dents).Nodup ∧ ∀ name ∈ kidNames dents, name ≠ [] ∧ '/' ∉ name

/-- The path `e` is `q` itself or `q` followed by a slash and more. -/
def Below (q e : Str) : Prop :=
  ∃ r : Str, e = q ++ r ∧ (r = [] ∨ r.head? = some '/')

/-- Every child path `sprintf` forms below the directory `d` fits the buffer
`b`. -/
abbrev childPathsFit (sys : Sys) (d : Str) : Prop :=
  ∀ dent ∈ (sys.opendir d).getD [], isDotOrDotDot dent.d_name = false →
    isDirType dent.d_type = true → (joinPath d dent.d_name).length < PATH_SIZE

/-- Pairwise disjoint roots: no directory is listed under two of the roots. -/
abbrev disjointRoots (sys : Sys) (depth : Nat) (roots : List Str) : Prop :=
  roots.Pairwise (fun r1 r2 =>
    ∀ e ∈ (listing sys depth r1).getD [], e ∉ (listing sys depth r2).getD [])

/-- The file system root with the one directory `usr`, reachable as `/usr` and
as `//usr`. -/
def slashSys : Sys :=
  sysOf fun p =>
    if p = "/".toList then some [directory ".", directory "..", directory "usr"]
    else if p = "/usr".toList ∨ p = "//usr".toList then some [directory ".", directory ".."]
    else none

/-- The tree of `treeSys` and a directory `locked` that cannot be opened. -/
def twoRoots : List Str := ["locked/".toList, "root/".toList]

/-! ## What the run is specified to print -/

theorem cvtLoop_eq (g p : Str) : cvtLoop g p = p ++ g.flatMap globCharDoc := by
  induction g generalizing p with
  | nil => simp [cvtLoop]
  | cons c g ih =>
    unfold cvtLoop
    by_cases h1 : c = '*'
    · simp [h1, ih, globCharDoc]
    · by_cases h2 : c = '.'
      · simp [h2, ih, globCharDoc]
      · by_cases h3 : c = '?'
        · simp [h3, ih, globCharDoc]
        · simp [h1, h2, h3, ih, globCharDoc]

theorem cvtPattern_eq (g : Str) : cvtPattern g = '^' :: (g.flatMap globCharDoc ++ ['$']) := by
  simp [cvtPattern, cvtLoop_eq]

/-- Number of stars and periods of a wildcard: the characters that take two
bytes in the expression. -/
theorem length_flatMap_globCharDoc (g : Str) :
    (g.flatMap globCharDoc).length
      = g.length + (g.filter (fun c => c = '*' ∨ c = '.')).length := by
  induction g with
  | nil => simp
  | cons c g ih =>
    rw [List.flatMap_cons, List.length_append, ih]
    by_cases h1 : c = '*'
    · simp [h1, globCharDoc]; omega
    · by_cases h2 : c = '.'
      · simp [h2, globCharDoc]; omega
      · by_cases h3 : c = '?'
        · simp [h3, globCharDoc]; omega
        · simp [h1, h2, h3, globCharDoc]; omega

theorem bytesWritten_eq (g : Str) :
    bytesWritten g = g.length + (g.filter (fun c => c = '*' ∨ c = '.')).length + 3 := by
  unfold bytesWritten
  rw [cvtPattern_eq, List.length_cons, List.length_append, length_flatMap_globCharDoc]
  simp

/-- C3: for every wildcard `g`, `cvtPattern` writes a caret, then for each
character of `g` in turn dot-star for a star, backslash-dot for a period, a dot
for a question mark and the character itself otherwise (regular-expression
metacharacters included), then a dollar sign; the three documented instances
follow. -/
theorem cvtPattern_spec :
    (∀ g : Str, cvtPattern g = cvtPatternDoc g)
    ∧ globCharDoc '+' = ['+'] ∧ globCharDoc '[' = ['['] ∧ globCharDoc '\\' = ['\\']
    ∧ cvtPattern "*.c".toList = "^.*\\.c$".toList
    ∧ cvtPattern "a.*".toList = "^a\\..*$".toList
    ∧ cvtPattern "".toList = "^$".toList := by
  refine ⟨fun g => ?_, by decide, by decide, by decide, by decide, by decide, by decide⟩
  simp [cvtPattern_eq, cvtPatternDoc]

/-- C7: the bytes written for a wildcard of length `n` number `n` plus the count
of stars and periods plus 3, at most `2 * n + 3`; but `main` hands any
`argv[1]` to `cvtPattern`, and for 2047 stars that is 4097 bytes, one more than
the 4096 bytes of `pattern`. -/
theorem cvtPattern_overruns_pattern_buffer :
    (∀ g : Str, bytesWritten g
        = g.length + (g.filter (fun c => c = '*' ∨ c = '.')).length + 3
      ∧ bytesWritten g ≤ 2 * g.length + 3)
    ∧ (∀ g : Str, 2 * g.length + 3 ≤ PATTERN_SIZE → bytesWritten g ≤ PATTERN_SIZE)
    ∧ bytesWritten (List.replicate 2047 '*') = 4097
    ∧ ¬ bytesWritten (List.replicate 2047 '*') ≤ PATTERN_SIZE := by
  have hlen : ∀ g : Str, bytesWritten g ≤ 2 * g.length + 3 := by
    intro g
    have := List.length_filter_le (fun c => decide (c = '*' ∨ c = '.')) g
    rw [bytesWritten_eq]; omega
  have h2047 : bytesWritten (List.replicate 2047 '*') = 4097 := by
    rw [bytesWritten_eq]
    have : (List.replicate 2047 '*').filter (fun c => decide (c = '*' ∨ c = '.'))
        = List.replicate 2047 '*' := by
      rw [List.filter_eq_self]
      intro a ha
      simp [List.eq_of_mem_replicate ha]
    rw [this, List.length_replicate]
  refine ⟨fun g => ⟨bytesWritten_eq g, hlen g⟩, ?_, h2047, ?_⟩
  · intro g hg
    exact le_trans (hlen g) hg
  · rw [h2047]; decide

/-! ## Theorems: the translated expression and the wildcard agree -/

theorem starLoop_iff (acc : Char → Bool) (k : Str → Bool) (s : Str) :
    starLoop acc k s = true
      ↔ ∃ pre suf, s = pre ++ suf ∧ (∀ c ∈ pre, acc c = true) ∧ k suf = true := by
  induction s with
  | nil =>
    simp only [starLoop]
    constructor
    · intro h
      exact ⟨[], [], rfl, by simp, h⟩
    · rintro ⟨pre, suf, hs, -, hk⟩
      have h := List.append_eq_nil.mp hs.symm
      rw [h.2] at hk
      exact hk
  | cons c t ih =>
    simp only [starLoop, Bool.or_eq_true, Bool.and_eq_true, ih]
    constructor
    · rintro (h | ⟨hc, pre, suf, rfl, hpre, hk⟩)
      · exact ⟨[], c :: t, rfl, by simp, h⟩
      · refine ⟨c :: pre, suf, rfl, ?_, hk⟩
        intro x hx
        rcases List.mem_cons.mp hx with rfl | hx
        · exact hc
        · exact hpre x hx
    · rintro ⟨pre, suf, hs, hpre, hk⟩
      cases pre with
      | nil =>
        left
        simp only [List.nil_append] at hs
        rw [hs]; exact hk
      | cons p pre =>
        right
        simp only [List.cons_append, List.cons.injEq] at hs
        obtain ⟨rfl, rfl⟩ := hs
        exact ⟨hpre c (List.mem_cons_self _ _), pre, suf, rfl,
          fun x hx => hpre x (List.mem_cons_of_mem _ hx), hk⟩

theorem matchHere_star (a : ReItem) (rest : List ReItem) (text : Str) :
    matchHere (a :: .star :: rest) text = starLoop a.accepts (matchHere rest) text := by
  simp [matchHere]

theorem matchHere_eol (text : Str) : matchHere [.eol] text = text.isEmpty := by
  simp [matchHere]

theorem matchHere_lit (c : Char) (rest : List ReItem) (text : Str)
    (h : rest.head? ≠ some .star) :
    matchHere (.lit c :: rest) text
      = match text with
        | [] => false
        | x :: t => (x == c) && matchHere rest t := by
  cases rest with
  | nil => cases text <;> simp [matchHere, ReItem.accepts]
  | cons r rest =>
    cases r with
    | star => simp at h
    | any => cases text <;> simp [matchHere, ReItem.accepts]
    | lit d => cases text <;> simp [matchHere, ReItem.accepts]
    | eol => cases text <;> simp [matchHere, ReItem.accepts]

theorem matchHere_any (rest : List ReItem) (text : Str)
    (h : rest.head? ≠ some .star) :
    matchHere (.any :: rest) text
      = match text with
        | [] => false
        | _ :: t => matchHere rest t := by
  cases rest with
  | nil => cases text <;> simp [matchHere, ReItem.accepts]
  | cons r rest =>
    cases r with
    | star => simp at h
    | any => cases text <;> simp [matchHere, ReItem.accepts]
    | lit d => cases text <;> simp [matchHere, ReItem.accepts]
    | eol => cases text <;> simp [matchHere, ReItem.accepts]

theorem globItems_head (g : Str) : (globItems g ++ [ReItem.eol]).head? ≠ some .star := by
  cases g with
  | nil => simp [globItems]
  | cons c g =>
    unfold globItems
    by_cases h1 : c = '*'
    · simp [h1]
    · by_cases h2 : c = '?'
      · simp [h2]
      · simp [h1, h2]

theorem globMatches_nil (s : Str) : GlobMatches [] s ↔ s = [] := by
  constructor
  · intro h; cases h; rfl
  · rintro rfl; exact .done

theorem globMatches_star (g s : Str) :
    GlobMatches ('*' :: g) s ↔ ∃ pre suf, s = pre ++ suf ∧ GlobMatches g suf := by
  constructor
  · intro h
    cases h with
    | star _ pre s h => exact ⟨pre, s, rfl, h⟩
    | self _ _ _ h1 _ _ => exact absurd rfl h1
  · rintro ⟨pre, suf, rfl, h⟩
    exact .star g pre suf h

theorem globMatches_one (g s : Str) :
    GlobMatches ('?' :: g) s ↔ ∃ c t, s = c :: t ∧ GlobMatches g t := by
  constructor
  · intro h
    cases h with
    | one _ c s h => exact ⟨c, s, rfl, h⟩
    | self _ _ _ _ h2 _ => exact absurd rfl h2
  · rintro ⟨c, t, rfl, h⟩
    exact .one g c t h

theorem globMatches_self (c : Char) (g s : Str) (h1 : c ≠ '*') (h2 : c ≠ '?') :
    GlobMatches (c :: g) s ↔ ∃ t, s = c :: t ∧ GlobMatches g t := by
  constructor
  · intro h
    cases h with
    | star _ pre s h => exact absurd rfl h1
    | one _ c s h => exact absurd rfl h2
    | self _ _ s _ _ h => exact ⟨s, rfl, h⟩
  · rintro ⟨t, rfl, h⟩
    exact .self g c t h1 h2 h

/-- The items of a wildcard, closed by the end anchor, accept exactly the names
the wildcard matches. -/
theorem matchHere_globItems (g s : Str) :
    matchHere (globItems g ++ [.eol]) s = true ↔ GlobMatches g s := by
  induction g generalizing s with
  | nil =>
    rw [globMatches_nil]
    simp [globItems, matchHere_eol]
  | cons c g ih =>
    unfold globItems
    by_cases h1 : c = '*'
    · subst h1
      simp only [if_true, List.cons_append, matchHere_star, starLoop_iff, globMatches_star]
      constructor
      · rintro ⟨pre, suf, hs, -, hk⟩
        exact ⟨pre, suf, hs, (ih suf).mp hk⟩
      · rintro ⟨pre, suf, hs, hk⟩
        exact ⟨pre, suf, hs, fun _ _ => rfl, (ih suf).mpr hk⟩
    · by_cases h2 : c = '?'
      · subst h2
        simp only [h1, if_false, if_true, List.cons_append, globMatches_one]
        rw [matchHere_any _ _ (globItems_head g)]
        cases s with
        | nil => simp
        | cons x t =>
          simp only [ih, List.cons.injEq]
          constructor
          · intro h
            exact ⟨x, t, ⟨rfl, rfl⟩, h⟩
          · rintro ⟨c, t2, ⟨rfl, rfl⟩, h⟩
            exact h
      · simp only [h1, h2, if_false, List.cons_append]
        rw [matchHere_lit _ _ _ (globItems_head g), globMatches_self c g s h1 h2]
        cases s with
        | nil => simp
        | cons x t =>
          simp only [Bool.and_eq_true, beq_iff_eq, ih, List.cons.injEq]
          constructor
          · rintro ⟨rfl, h⟩
            exact ⟨t, ⟨rfl, rfl⟩, h⟩
          · rintro ⟨t2, ⟨rfl, rfl⟩, h⟩
            exact ⟨rfl, h⟩

theorem reLex_dot (re : Str) : reLex ('.' :: re) = .any :: reLex re := by
  rw [reLex.eq_def]; simp

theorem reLex_star (re : Str) : reLex ('*' :: re) = .star :: reLex re := by
  rw [reLex.eq_def]; simp

theorem reLex_esc (e : Char) (re : Str) : reLex ('\\' :: e :: re) = .lit e :: reLex re := by
  rw [reLex.eq_def]; simp

theorem reLex_lit (c : Char) (re : Str) (h1 : c ≠ '\\') (h2 : c ≠ '.') (h3 : c ≠ '*')
    (h4 : c ≠ '$') : reLex (c :: re) = .lit c :: reLex re := by
  rw [reLex.eq_def]; simp [h1, h2, h3, h4]

/-- Lexing the translated wildcard gives the wildcard's items, provided the
wildcard holds no metacharacter besides star, question mark and period. -/
theorem reLex_cvt (g : Str)
    (hg : ∀ c ∈ g, isRegexMeta c = true → c = '*' ∨ c = '?' ∨ c = '.') :
    reLex (g.flatMap globCharDoc ++ ['$']) = globItems g ++ [.eol] := by
  induction g with
  | nil => simp [reLex, globItems]
  | cons c g ih =>
    have ih2 := ih (fun x hx => hg x (List.mem_cons_of_mem _ hx))
    have hc := hg c (List.mem_cons_self _ _)
    rw [List.flatMap_cons]
    by_cases h1 : c = '*'
    · subst h1
      rw [show globCharDoc '*' = ['.', '*'] from rfl]
      simp only [List.cons_append, List.nil_append, reLex_dot, reLex_star, ih2]
      simp [globItems]
    · by_cases h2 : c = '.'
      · subst h2
        rw [show globCharDoc '.' = ['\\', '.'] from rfl]
        simp only [List.cons_append, List.nil_append, reLex_esc, ih2]
        simp [globItems]
      · by_cases h3 : c = '?'
        · subst h3
          rw [show globCharDoc '?' = ['.'] from rfl]
          simp only [List.cons_append, List.nil_append, reLex_dot, ih2]
          simp [globItems]
        · have h4 : c ≠ '\\' := by
            rintro rfl
            exact absurd (hc (by decide)) (by decide)
          have h5 : c ≠ '$' := by
            rintro rfl
            exact absurd (hc (by decide)) (by decide)
          have hd : globCharDoc c = [c] := by simp [globCharDoc, h1, h2, h3]
          rw [hd]
          simp only [List.cons_append, List.nil_append, reLex_lit c _ h4 h2 h1 h5, ih2]
          simp [globItems, h1, h3]

/-- C2: for a wildcard whose characters other than star, question mark and
period are not regular-expression metacharacters, the expression `cvtPattern`
produces matches a file name exactly when the whole name matches the wildcard;
with the documented instances for `*.c` and `a.*`. -/
theorem cvtPattern_matches_iff_glob (g : Str)
    (hg : ∀ c ∈ g, isRegexMeta c = true → c = '*' ∨ c = '?' ∨ c = '.') :
    (∀ name : Str, reMatch (cvtPattern g) name = true ↔ GlobMatches g name)
    ∧ reMatch (cvtPattern "*.c".toList) "a.c".toList = true
    ∧ reMatch (cvtPattern "*.c".toList) "foo.c".toList = true
    ∧ reMatch (cvtPattern "*.c".toList) "a.cx".toList = false
    ∧ reMatch (cvtPattern "*.c".toList) "c".toList = false
    ∧ reMatch (cvtPattern "a.*".toList) "a.txt".toList = true
    ∧ reMatch (cvtPattern "a.*".toList) "a.".toList = true
    ∧ reMatch (cvtPattern "a.*".toList) "ba.txt".toList = false := by
  refine ⟨fun name => ?_, by decide, by decide, by decide, by decide, by decide, by decide,
    by decide⟩
  rw [cvtPattern_eq]
  simp only [reMatch]
  rw [reLex_cvt g hg, matchHere_globItems]

/-- Witness for C2 at the wildcard `*.c`. -/
theorem cvtPattern_matches_iff_glob_witness :
    (∀ c ∈ "*.c".toList, isRegexMeta c = true → c = '*' ∨ c = '?' ∨ c = '.')
    ∧ (reMatch (cvtPattern "*.c".toList) "foo.c".toList = true
        ↔ GlobMatches "*.c".toList "foo.c".toList) :=
  ⟨by decide, (cvtPattern_matches_iff_glob "*.c".toList (by decide)).1 "foo.c".toList⟩

/-! ## Theorems: the directory test, applyRe and process -/

theorem strcmp_self (a : Str) : strcmp a a = 0 := by
  induction a with
  | nil => rfl
  | cons c a ih => simp [strcmp, ih]

theorem ts_contains_of_mem (ts : List Str) (x : Str) (h : x ∈ ts) : ts_contains ts x = true := by
  simp only [ts_contains, List.any_eq_true]
  exact ⟨x, h, by simp [scmp, strcmp_self]⟩

theorem ts_add_of_mem (alloc : Bool) (ts : List Str) (x : Str) (h : x ∈ ts) :
    ts_add alloc ts x = (false, ts) := by
  simp [ts_add, ts_contains_of_mem ts x h]

theorem applyReLoop_append (sys : Sys) (regexp : Str → Bool) (dir : Str)
    (pre rest : List Dirent) (ts : List Str) (held : Bool) :
    applyReLoop sys regexp dir (pre ++ rest) ts held
      = match applyReLoop sys regexp dir pre ts held with
        | some (true, ts1, held1) => applyReLoop sys regexp dir rest ts1 held1
        | r => r := by
  induction pre generalizing ts held with
  | nil => simp [applyReLoop]
  | cons e pre ih =>
    simp only [List.cons_append, applyReLoop]
    cases applyReEntry sys regexp dir e ts held with
    | next ts1 held1 => simp [ih]
    | stop ts1 held1 => simp
    | blocked => simp
    | overrun => simp

theorem applyReEntry_next_free (sys : Sys) (regexp : Str → Bool) (dir : Str) (dent : Dirent)
    (ts ts1 : List Str) (held1 : Bool)
    (h : applyReEntry sys regexp dir dent ts false = .next ts1 held1) : held1 = false := by
  unfold applyReEntry at h
  rcases h5 : ts_add (sys.ts_alloc (joinPath dir dent.d_name)) ts (joinPath dir dent.d_name)
    with ⟨ok, ts2⟩
  by_cases h6 : (joinPath dir dent.d_name).length < PATH_SIZE <;>
    cases h1 : isDotOrDotDot dent.d_name <;> cases h2 : isDirType dent.d_type <;>
    cases h3 : regexp dent.d_name <;> cases h4 : sys.strdup (joinPath dir dent.d_name) <;>
    cases ok <;> simp [h1, h2, h3, h4, h5, h6] at h <;> exact h.2

theorem applyReLoop_success_free (sys : Sys) (regexp : Str → Bool) (dir : Str)
    (dents : List Dirent) :
    ∀ (ts ts1 : List Str) (held1 : Bool),
      applyReLoop sys regexp dir dents ts false = some (true, ts1, held1) → held1 = false := by
  induction dents with
  | nil =>
    intro ts ts1 held1 h
    simp only [applyReLoop, Option.some.injEq, Prod.mk.injEq, true_and] at h
    first | exact h.2 | exact h.2.symm
  | cons dent rest ih =>
    intro ts ts1 held1 h
    simp only [applyReLoop] at h
    rcases hturn : applyReEntry sys regexp dir dent ts false
      with ⟨ts2, held2⟩ | ⟨ts2, held2⟩ | _ | _
    · simp only [hturn] at h
      have := applyReEntry_next_free sys regexp dir dent ts ts2 held2 hturn
      subst this
      exact ih ts2 ts1 held1 h
    · simp [hturn] at h
    · simp [hturn] at h
    · simp [hturn] at h

set_option maxRecDepth 100000 in
/-- C9: the test `d_type & DT_DIR` is non-zero for every type byte with bit 2
set, not only for `DT_DIR`: block devices (6) and sockets (12) pass it as well.
A socket or block device whose name matches is therefore not inserted by
`applyRe` (only the regular file `z.c` is), and `processDirectory` calls itself
on such an entry. -/
theorem dirTest_accepts_socket_and_block_device :
    (∀ t, t < 256 → (isDirType t = true ↔ t / 4 % 2 = 1))
    ∧ isDirType 4 = true ∧ isDirType 6 = true ∧ isDirType 12 = true
    ∧ isDirType 0 = false ∧ isDirType 1 = false ∧ isDirType 2 = false
    ∧ isDirType 8 = false ∧ isDirType 10 = false
    ∧ applyRe socketSys (reMatch (cvtPattern "*.c".toList)) "d".toList [] false
        = some (true, ["d/z.c".toList], false)
    ∧ (∀ (recurse : Str → List Str → Option (Bool × List Str)) (ll : List Str),
        walkEntries recurse "d".toList [⟨"x.c".toList, 12⟩] ll
          = match recurse "d/x.c".toList ll with
            | none => none
            | some (status, ll1) => if status then some (true, ll1) else some (false, ll1)) := by
  refine ⟨by decide, by decide, by decide, by decide, by decide, by decide, by decide,
    by decide, by decide, by decide, ?_⟩
  intro recurse ll
  simp [walkEntries, isDotOrDotDot, isDirType, DT_DIR, joinPath, PATH_SIZE]

/-- C10: entered with `tsMutex` free on a directory whose matching entry `a.c` is
already in the set, `applyRe` returns 0 with `tsMutex` still held (the `break`
after a failed `ts_add` skips the unlock); a later `applyRe` that needs the
mutex never returns.  A turn of the loop ends with the mutex held exactly when
`ts_add` was called and returned 0, and a scan that returns 1 leaves the mutex
free. -/
theorem applyRe_returns_with_tsMutex_held :
    applyRe twoFileSys (reMatch (cvtPattern "*.c".toList)) "d".toList ["d/a.c".toList] false
      = some (false, ["d/a.c".toList], true)
    ∧ applyRe twoFileSys (reMatch (cvtPattern "*.c".toList)) "d".toList [] true = none
    ∧ (∀ (sys : Sys) (regexp : Str → Bool) (dir : Str) (dent : Dirent) (ts ts1 : List Str),
        applyReEntry sys regexp dir dent ts false = .stop ts1 true
          ↔ (isDotOrDotDot dent.d_name = false ∧ isDirType dent.d_type = false
              ∧ regexp dent.d_name = true
              ∧ (joinPath dir dent.d_name).length < PATH_SIZE
              ∧ sys.strdup (joinPath dir dent.d_name) = true
              ∧ ts_add (sys.ts_alloc (joinPath dir dent.d_name)) ts (joinPath dir dent.d_name)
                  = (false, ts1)))
    ∧ (∀ (sys : Sys) (regexp : Str → Bool) (dir : Str) (ts ts1 : List Str) (held1 : Bool),
        applyRe sys regexp dir ts false = some (true, ts1, held1) → held1 = false) := by
  refine ⟨by decide, by decide, ?_, ?_⟩
  · intro sys regexp dir dent ts ts1
    unfold applyReEntry
    rcases h5 : ts_add (sys.ts_alloc (joinPath dir dent.d_name)) ts (joinPath dir dent.d_name)
      with ⟨ok, ts2⟩
    by_cases h6 : (joinPath dir dent.d_name).length < PATH_SIZE <;>
      cases h1 : isDotOrDotDot dent.d_name <;> cases h2 : isDirType dent.d_type <;>
      cases h3 : regexp dent.d_name <;> cases h4 : sys.strdup (joinPath dir dent.d_name) <;>
      cases ok <;> simp [h4, h5, h6]
  · intro sys regexp dir ts ts1 held1 h
    unfold applyRe at h
    rcases ho : sys.opendir dir with _ | dents
    · simp [ho] at h
    · simp only [ho] at h
      exact applyReLoop_success_free sys regexp dir dents ts ts1 held1 h

/-- C6 as stated fails: with `d/a.c` already in the set, the scan of `d` stops at
`a.c` and `applyRe` returns 0; `b.c` is never examined, although a scan that
starts from the empty set stores both names and returns 1. -/
theorem applyRe_duplicate_not_noop :
    applyRe twoFileSys (fun _ => true) "d".toList ["d/a.c".toList] false
      = some (false, ["d/a.c".toList], true)
    ∧ applyRe twoFileSys (fun _ => true) "d".toList ["d/a.c".toList] false
      ≠ some (true, ["d/a.c".toList, "d/b.c".toList], false)
    ∧ applyRe twoFileSys (fun _ => true) "d".toList [] false
      = some (true, ["d/a.c".toList, "d/b.c".toList], false) := by
  decide

/-- C6 (amended): when a scan of `dir` reaches, with `tsMutex` free, a matching
entry, not a directory, whose path fits the buffer `b` and is already in the
set, the set stays as it is, the entries after it are not examined and `applyRe`
returns 0.  (`hpre` says that the entries before it were handled without
leaving the loop and left the mutex free.) -/
theorem applyRe_duplicate_stops (sys : Sys) (regexp : Str → Bool) (dir : Str)
    (pre : List Dirent) (dent : Dirent) (rest : List Dirent) (ts ts1 : List Str)
    (held : Bool)
    (hopen : sys.opendir dir = some (pre ++ dent :: rest))
    (hpre : applyReLoop sys regexp dir pre ts held = some (true, ts1, false))
    (hdot : isDotOrDotDot dent.d_name = false)
    (htype : isDirType dent.d_type = false)
    (hmatch : regexp dent.d_name = true)
    (hlen : (joinPath dir dent.d_name).length < PATH_SIZE)
    (hmem : joinPath dir dent.d_name ∈ ts1) :
    ∃ held1, applyRe sys regexp dir ts held = some (false, ts1, held1) := by
  simp only [applyRe, hopen, applyReLoop_append, hpre]
  cases hdup : sys.strdup (joinPath dir dent.d_name)
  · exact ⟨false, by
      simp [applyReLoop, applyReEntry, hdot, htype, hmatch, hdup, hlen]⟩
  · exact ⟨true, by
      simp [applyReLoop, applyReEntry, hdot, htype, hmatch, hdup, hlen,
        ts_add_of_mem _ _ _ hmem]⟩

/-- Witness for C6 (amended): `d` holds `a.c` and `b.c`, and the set already
holds `d/b.c` when the scan starts. -/
theorem applyRe_duplicate_stops_witness :
    ∃ held1, applyRe twoFileSys (fun _ => true) "d".toList ["d/b.c".toList] false
      = some (false, ["d/a.c".toList, "d/b.c".toList], held1) :=
  applyRe_duplicate_stops twoFileSys (fun _ => true) "d".toList [regularFile "a.c"]
    (regularFile "b.c") [] ["d/b.c".toList] ["d/a.c".toList, "d/b.c".toList] false
    (by decide) (by decide) (by decide) (by decide) (by decide) (by decide) (by decide)

theorem digitChar_spec : ∀ k, k < 10 →
    (Nat.digitChar k).isDigit = true ∧ (Nat.digitChar k).toNat - 48 = k := by
  decide

theorem atoiDigits_snoc (s : Str) (c : Char) (acc : Nat)
    (hs : ∀ x ∈ s, x.isDigit = true) (hc : c.isDigit = true) :
    atoiDigits (s ++ [c]) acc = 10 * atoiDigits s acc + (c.toNat - 48) := by
  induction s generalizing acc with
  | nil => simp [atoiDigits, hc]
  | cons x s ih =>
    have hx := hs x (List.mem_cons_self _ _)
    simp only [List.cons_append, atoiDigits, hx, if_true]
    exact ih _ (fun y hy => hs y (List.mem_cons_of_mem _ hy))

theorem toDigitsCore_append (fuel n : Nat) (ds : List Char) :
    Nat.toDigitsCore 10 fuel n ds = Nat.toDigitsCore 10 fuel n [] ++ ds := by
  induction fuel generalizing n ds with
  | zero => simp [Nat.toDigitsCore]
  | succ fuel ih =>
    simp only [Nat.toDigitsCore]
    split
    · simp
    · rw [ih (n / 10) (Nat.digitChar (n % 10) :: ds), ih (n / 10) [Nat.digitChar (n % 10)]]
      simp

theorem toDigitsCore_value (fuel n : Nat) (h : n < fuel) :
    (∀ x ∈ Nat.toDigitsCore 10 fuel n [], x.isDigit = true)
    ∧ atoiDigits (Nat.toDigitsCore 10 fuel n []) 0 = n
    ∧ Nat.toDigitsCore 10 fuel n [] ≠ [] := by
  induction fuel generalizing n with
  | zero => omega
  | succ fuel ih =>
    have hd := digitChar_spec (n % 10) (Nat.mod_lt _ (by decide))
    simp only [Nat.toDigitsCore]
    split
    · rename_i h0
      have hn : n % 10 = n := by omega
      refine ⟨?_, ?_, by simp⟩
      · intro x hx
        simp only [List.mem_singleton] at hx
        rw [hx]; exact hd.1
      · simp only [atoiDigits, hd.1, if_true]
        omega
    · rename_i h0
      have hlt : n / 10 < fuel := by omega
      obtain ⟨h1, h2, h3⟩ := ih (n / 10) hlt
      rw [toDigitsCore_append]
      refine ⟨?_, ?_, by simp⟩
      · intro x hx
        rcases List.mem_append.mp hx with hx | hx
        · exact h1 x hx
        · simp only [List.mem_singleton] at hx
          rw [hx]; exact hd.1
      · rw [atoiDigits_snoc _ _ _ h1 hd.1, h2, hd.2]
        omega

theorem isDigit_bounds (c : Char) (h : c.isDigit = true) : 48 ≤ c.toNat ∧ c.toNat ≤ 57 := by
  simp only [Char.isDigit, Bool.and_eq_true, decide_eq_true_eq] at h
  exact ⟨h.1, h.2⟩

theorem atoi_of_digit_head (c : Char) (r : Str) (h : c.isDigit = true) :
    atoi (c :: r) = (atoiDigits (c :: r) 0 : Int) := by
  have hb := isDigit_bounds c h
  have hsp : isSpace c = false := by
    simp only [isSpace, Bool.decide_or, Bool.or_eq_false_iff, decide_eq_false_iff_not]
    constructor
    · rintro rfl
      revert hb; decide
    · omega
  have hm : c ≠ '-' := by
    rintro rfl
    revert hb; decide
  have hp : c ≠ '+' := by
    rintro rfl
    revert hb; decide
  simp only [atoi, List.dropWhile, hsp]
  split
  · rename_i heq
    simp only [List.cons.injEq] at heq
    exact absurd heq.1 hm
  · rename_i heq
    simp only [List.cons.injEq] at heq
    exact absurd heq.1 hp
  · rfl

theorem atoi_toDigits (n : Nat) : atoi (Nat.toDigits 10 n) = (n : Int) := by
  obtain ⟨h1, h2, h3⟩ := toDigitsCore_value (n + 1) n (Nat.lt_succ_self n)
  unfold Nat.toDigits
  rcases hs : Nat.toDigitsCore 10 (n + 1) n [] with _ | ⟨c, r⟩
  · exact absurd hs h3
  · rw [hs] at h1 h2
    rw [atoi_of_digit_head c r (h1 c (List.mem_cons_self _ _)), h2]

theorem spawned_of_atoi_nonpos (v : Str) (h : atoi v ≤ 0) : spawned (some v) = none := by
  have hc : CRAWLER_THREADS (some v)
      = if -INT_MAX - 1 ≤ atoi v ∧ atoi v ≤ INT_MAX then some (atoi v) else none := rfl
  unfold spawned
  rw [hc]
  by_cases hr : -INT_MAX - 1 ≤ atoi v ∧ atoi v ≤ INT_MAX
  · rw [if_pos hr]
    simp only [if_neg (not_lt.mpr h)]
  · rw [if_neg hr]

theorem spawned_toDigits (n : Nat) (hpos : 0 < n) (hmax : (n : Int) ≤ INT_MAX) :
    spawned (some (Nat.toDigits 10 n)) = some n := by
  have hlo : -INT_MAX - 1 ≤ (n : Int) := by
    have : (0 : Int) ≤ (n : Int) := Int.ofNat_nonneg n
    unfold INT_MAX
    omega
  have hpos2 : (0 : Int) < (n : Int) := by exact_mod_cast hpos
  simp [spawned, CRAWLER_THREADS, atoi_toDigits, hlo, hmax, hpos2]

/-- C8: with the setting absent 2 workers are created, and the decimal numeral
of a positive `n` within the range of `int` gives `n` workers; but the values
`0`, `-3`, `abc` and the empty string do not give the default: `atoi` reads
them as 0, -3, 0 and 0, the array `cr_thr` then has no valid size, no worker is
created and `main` has no defined result.  The same holds for every value that
`atoi` reads as zero or negative. -/
theorem spawned_undefined_for_invalid :
    spawned none = some 2
    ∧ (∀ n : Nat, 0 < n → (n : Int) ≤ INT_MAX → spawned (some (Nat.toDigits 10 n)) = some n)
    ∧ spawned (some "8".toList) = some 8
    ∧ CRAWLER_THREADS (some "0".toList) = some 0
    ∧ CRAWLER_THREADS (some "-3".toList) = some (-3)
    ∧ CRAWLER_THREADS (some "abc".toList) = some 0
    ∧ CRAWLER_THREADS (some "".toList) = some 0
    ∧ spawned (some "0".toList) = none ∧ spawned (some "-3".toList) = none
    ∧ spawned (some "abc".toList) = none ∧ spawned (some "".toList) = none
    ∧ (∀ v : Str, atoi v ≤ 0 → spawned (some v) = none)
    ∧ (∀ (v : Str) (sys : Sys) (compile : Str → Option (Str → Bool)) (argv : List Str)
        (fuel : Nat) (sched : List Nat),
        atoi v ≤ 0 → main sys compile (some v) argv fuel sched = none) := by
  refine ⟨rfl, spawned_toDigits, by decide, by decide, by decide, by decide, by decide,
    by decide, by decide, by decide, by decide, spawned_of_atoi_nonpos, ?_⟩
  intro v sys compile argv fuel sched hv
  simp [main, spawned_of_atoi_nonpos v hv]

/-! ## Theorems: the discovery -/

theorem childBase_eq (p : Str) :
    (if p.length = 1 ∧ (stripSlash p).head? = some '/' then ([] : Str) else stripSlash p)
      = (if p = ['/'] then [] else stripSlash p) := by
  by_cases hp : p = ['/']
  · subst hp
    simp [stripSlash]
  · rw [if_neg hp, if_neg]
    rintro ⟨hlen, hhead⟩
    apply hp
    have hs : stripSlash p = p := by
      simp only [stripSlash]
      rw [if_neg]
      omega
    rw [hs] at hhead
    match p, hlen, hhead with
    | [c], _, hhead =>
      simp only [List.head?_cons, Option.some.injEq] at hhead
      rw [hhead]

theorem mem_listKids (f : Str → Option (List Str)) (b : Str) (dents : List Dirent) :
    ∀ ks, listKids f b dents = some ks → ∀ e ∈ ks,
      ∃ dent ∈ dents, isDotOrDotDot dent.d_name = false ∧ isDirType dent.d_type = true
        ∧ ∃ own, f (joinPath b dent.d_name) = some own ∧ e ∈ own := by
  induction dents with
  | nil =>
    intro ks h e he
    simp only [listKids, Option.some.injEq] at h
    rw [← h] at he
    cases he
  | cons dent rest ih =>
    intro ks h e he
    simp only [listKids] at h
    by_cases hc : isDotOrDotDot dent.d_name = true ∨ isDirType dent.d_type = false
    · simp only [hc, if_true] at h
      obtain ⟨d2, hd2, rest2⟩ := ih ks h e he
      exact ⟨d2, List.mem_cons_of_mem _ hd2, rest2⟩
    · simp only [hc, if_false] at h
      have hdot : isDotOrDotDot dent.d_name = false := by
        cases hx : isDotOrDotDot dent.d_name
        · rfl
        · exact absurd (Or.inl hx) hc
      have hty : isDirType dent.d_type = true := by
        cases hx : isDirType dent.d_type
        · exact absurd (Or.inr hx) hc
        · rfl
      rcases h1 : f (joinPath b dent.d_name) with _ | own
      · simp [h1] at h
      · rcases h2 : listKids f b rest with _ | others
        · simp [h1, h2] at h
        · simp only [h1, h2, Option.some.injEq] at h
          rw [← h] at he
          rcases List.mem_append.mp he with he | he
          · exact ⟨dent, List.mem_cons_self _ _, hdot, hty, own, h1, he⟩
          · obtain ⟨d2, hd2, rest2⟩ := ih others h2 e he
            exact ⟨d2, List.mem_cons_of_mem _ hd2, rest2⟩

theorem listKids_subset (f : Str → Option (List Str)) (b : Str) (dents : List Dirent) :
    ∀ ks, listKids f b dents = some ks → ∀ dent ∈ dents,
      isDotOrDotDot dent.d_name = false → isDirType dent.d_type = true →
      ∀ own, f (joinPath b dent.d_name) = some own → ∀ e ∈ own, e ∈ ks := by
  induction dents with
  | nil =>
    intro ks _ dent hd
    cases hd
  | cons d0 rest ih =>
    intro ks h dent hd hdot hty own hown e he
    simp only [listKids] at h
    by_cases hc : isDotOrDotDot d0.d_name = true ∨ isDirType d0.d_type = false
    · simp only [hc, if_true] at h
      rcases List.mem_cons.mp hd with rfl | hd
      · rcases hc with hc | hc
        · rw [hc] at hdot; cases hdot
        · rw [hc] at hty; cases hty
      · exact ih ks h dent hd hdot hty own hown e he
    · simp only [hc, if_false] at h
      rcases h1 : f (joinPath b d0.d_name) with _ | own0
      · simp [h1] at h
      · rcases h2 : listKids f b rest with _ | others
        · simp [h1, h2] at h
        · simp only [h1, h2, Option.some.injEq] at h
          rw [← h]
          rcases List.mem_cons.mp hd with rfl | hd
          · rw [h1] at hown
            simp only [Option.some.injEq] at hown
            rw [hown]
            exact List.mem_append_left _ he
          · exact List.mem_append_right _ (ih others h2 dent hd hdot hty own hown e he)

theorem walkEntries_eq_listKids (sys : Sys) (depth fuel : Nat) (parent : Str)
    (hrec : ∀ (q : Str) (l : List Str), listing sys depth q = some l →
      q.length < PATH_SIZE → (∀ d ∈ l, childPathsFit sys d) →
      ∀ ll, processDirectory sys fuel q ll = some (true, ll ++ l))
    (dents : List Dirent) :
    ∀ (l ll : List Str), listKids (listing sys depth) parent dents = some l →
      (∀ dent ∈ dents, isDotOrDotDot dent.d_name = false → isDirType dent.d_type = true →
        (joinPath parent dent.d_name).length < PATH_SIZE) →
      (∀ d ∈ l, childPathsFit sys d) →
      walkEntries (processDirectory sys fuel) parent dents ll = some (true, ll ++ l) := by
  induction dents with
  | nil =>
    intro l ll hl _ _
    simp only [listKids, Option.some.injEq] at hl
    simp [walkEntries, ← hl]
  | cons dent rest ih =>
    intro l ll hl hfit hk
    have hfit2 : ∀ d2 ∈ rest, isDotOrDotDot d2.d_name = false → isDirType d2.d_type = true →
        (joinPath parent d2.d_name).length < PATH_SIZE :=
      fun d2 hd2 => hfit d2 (List.mem_cons_of_mem _ hd2)
    simp only [listKids] at hl
    simp only [walkEntries]
    by_cases hdot : isDotOrDotDot dent.d_name = true
    · simp only [hdot, true_or, if_true] at hl ⊢
      exact ih l ll hl hfit2 hk
    · have hdot2 : isDotOrDotDot dent.d_name = false := by
        cases hx : isDotOrDotDot dent.d_name
        · rfl
        · exact absurd hx hdot
      simp only [hdot, false_or, Bool.false_eq_true, if_false] at hl ⊢
      by_cases hty : isDirType dent.d_type = true
      · simp only [hty, Bool.true_eq_false, if_false, if_true] at hl ⊢
        have hlen := hfit dent (List.mem_cons_self _ _) hdot2 hty
        rw [if_pos hlen]
        rcases h1 : listing sys depth (joinPath parent dent.d_name) with _ | own
        · simp [h1] at hl
        · rcases h2 : listKids (listing sys depth) parent rest with _ | others
          · simp [h1, h2] at hl
          · simp only [h1, h2, Option.some.injEq] at hl
            have hk1 : ∀ d ∈ own, childPathsFit sys d :=
              fun d hd => hk d (by rw [← hl]; exact List.mem_append_left _ hd)
            have hk2 : ∀ d ∈ others, childPathsFit sys d :=
              fun d hd => hk d (by rw [← hl]; exact List.mem_append_right _ hd)
            rw [hrec _ own h1 hlen hk1 ll]
            simp only [if_true]
            rw [ih others (ll ++ own) h2 hfit2 hk2, ← hl, List.append_assoc]
      · have hty2 : isDirType dent.d_type = false := by
          cases h : isDirType dent.d_type
          · rfl
          · exact absurd h hty
        simp only [hty2, if_true, Bool.false_eq_true, if_false] at hl ⊢
        exact ih l ll hl hfit2 hk

theorem processDirectory_eq_listing (sys : Sys)
    (halloc : ∀ p, sys.strdup p = true ∧ sys.ll_alloc p = true)
    (depth : Nat) :
    ∀ (p : Str) (l : List Str), listing sys depth p = some l →
      p.length < PATH_SIZE → (∀ d ∈ l, childPathsFit sys d) →
      ∀ fuel, depth ≤ fuel → ∀ ll, processDirectory sys fuel p ll = some (true, ll ++ l) := by
  induction depth with
  | zero =>
    intro p l hl
    simp [listing] at hl
  | succ depth ih =>
    intro p l hl hp hk fuel hfuel ll
    obtain ⟨f, rfl⟩ : ∃ f, fuel = f + 1 := ⟨fuel - 1, by omega⟩
    have hf : depth ≤ f := by omega
    simp only [listing] at hl
    simp only [processDirectory, if_pos hp]
    have hstrip : (if p.length > 1 ∧ p.getLast? = some '/' then p.dropLast else p)
        = stripSlash p := rfl
    rw [hstrip]
    rcases ho : sys.opendir (stripSlash p) with _ | dents
    · simp only [ho, Option.some.injEq] at hl
      simp [← hl]
    · simp only [ho, Option.map_eq_some'] at hl
      obtain ⟨kids, hkids, rfl⟩ := hl
      simp only [(halloc (stripSlash p)).1, (halloc (stripSlash p)).2, ll_add, if_true]
      rw [childBase_eq]
      have hself := hk (stripSlash p) (List.mem_cons_self _ _)
      have hfit : ∀ dent ∈ dents, isDotOrDotDot dent.d_name = false →
          isDirType dent.d_type = true →
          (joinPath (if p = ['/'] then [] else stripSlash p) dent.d_name).length
            < PATH_SIZE := by
        intro dent hd hdot hty
        have h1 := hself dent (by rw [ho]; exact hd) hdot hty
        split
        · simp only [joinPath, List.length_append, List.length_cons, List.nil_append] at h1 ⊢
          omega
        · exact h1
      rw [walkEntries_eq_listKids sys depth f _
        (fun q l h hq hkq ll => ih q l h hq hkq f hf ll) dents kids _ hkids hfit
        (fun d hd => hk d (List.mem_cons_of_mem _ hd))]
      simp

theorem discover_append (sys : Sys)
    (halloc : ∀ p, sys.strdup p = true ∧ sys.ll_alloc p = true)
    (depth fuel : Nat) (hfuel : depth ≤ fuel) (roots : List Str) :
    ∀ (l ll : List Str), listingRoots sys depth roots = some l →
      (∀ r ∈ roots, r.length < PATH_SIZE) → (∀ d ∈ l, childPathsFit sys d) →
      discover sys fuel roots ll = some (true, ll ++ l) := by
  induction roots with
  | nil =>
    intro l ll hl _ _
    simp only [listingRoots, Option.some.injEq] at hl
    simp [discover, ← hl]
  | cons root roots ih =>
    intro l ll hl hroots hk
    simp only [listingRoots] at hl
    rcases h1 : listing sys depth root with _ | own
    · simp [h1] at hl
    · rcases h2 : listingRoots sys depth roots with _ | others
      · simp [h1, h2] at hl
      · simp only [h1, h2, Option.some.injEq] at hl
        simp only [discover]
        rw [processDirectory_eq_listing sys halloc depth root own h1
          (hroots root (List.mem_cons_self _ _))
          (fun d hd => hk d (by rw [← hl]; exact List.mem_append_left _ hd)) fuel hfuel ll]
        simp only [if_true]
        rw [ih others (ll ++ own) h2 (fun r hr => hroots r (List.mem_cons_of_mem _ hr))
          (fun d hd => hk d (by rw [← hl]; exact List.mem_append_right _ hd)),
          ← hl, List.append_assoc]

/-! ## Theorems: each directory is listed once -/

theorem slashfree_append_inj (n : Str) :
    ∀ (n2 r r2 : Str), '/' ∉ n → '/' ∉ n2 → (r = [] ∨ r.head? = some '/') →
      (r2 = [] ∨ r2.head? = some '/') → n ++ r = n2 ++ r2 → n = n2 := by
  induction n with
  | nil =>
    intro n2 r r2 _ h2 hr _ h
    cases n2 with
    | nil => rfl
    | cons c t =>
      exfalso
      simp only [List.nil_append, List.cons_append] at h
      rcases hr with hr | hr
      · rw [hr] at h; cases h
      · rw [h] at hr
        simp only [List.head?_cons, Option.some.injEq] at hr
        exact h2 (by rw [hr]; exact List.mem_cons_self _ _)
  | cons a n1 ih =>
    intro n2 r r2 h1 h2 hr hr2 h
    cases n2 with
    | nil =>
      exfalso
      simp only [List.nil_append, List.cons_append] at h
      rcases hr2 with hr2 | hr2
      · rw [hr2] at h; cases h
      · rw [← h] at hr2
        simp only [List.head?_cons, Option.some.injEq] at hr2
        exact h1 (by rw [hr2]; exact List.mem_cons_self _ _)
    | cons c t =>
      simp only [List.cons_append, List.cons.injEq] at h
      obtain ⟨hac, ht⟩ := h
      rw [hac, ih t r r2 (fun hm => h1 (List.mem_cons_of_mem _ hm))
        (fun hm => h2 (List.mem_cons_of_mem _ hm)) hr hr2 ht]

theorem below_of_below_child (q n e : Str) (h : Below (joinPath q n) e) : Below q e := by
  obtain ⟨r, he, _⟩ := h
  refine ⟨'/' :: (n ++ r), ?_, Or.inr rfl⟩
  rw [he]
  simp [joinPath]

theorem below_children_disjoint (b n n2 e : Str) (hn : '/' ∉ n) (hn2 : '/' ∉ n2)
    (hne : n ≠ n2) (h1 : Below (joinPath b n) e) (h2 : Below (joinPath b n2) e) : False := by
  obtain ⟨r, he, hr⟩ := h1
  obtain ⟨r2, he2, hr2⟩ := h2
  rw [he] at he2
  simp only [joinPath, List.append_assoc, List.cons_append, List.append_cancel_left_eq,
    List.cons.injEq, true_and] at he2
  exact hne (slashfree_append_inj n n2 r r2 hn hn2 hr hr2 he2)

theorem stripSlash_joinPath (b n : Str) (hne : n ≠ []) (hn : '/' ∉ n) :
    stripSlash (joinPath b n) = joinPath b n ∧ joinPath b n ≠ ['/'] := by
  have hlast : (joinPath b n).getLast? ≠ some '/' := by
    intro h
    have hmem : '/' ∈ n := by
      have h2 : (joinPath b n).getLast? = n.getLast? := by
        cases n with
        | nil => exact absurd rfl hne
        | cons a t =>
          simp only [joinPath, List.getLast?_append, List.getLast?_cons_cons]
          rw [List.getLast?_eq_getLast (a :: t) (List.cons_ne_nil a t)]
          rfl
      rw [h2] at h
      exact List.mem_of_getLast?_eq_some h
    exact hn hmem
  constructor
  · simp only [stripSlash]
    rw [if_neg]
    rintro ⟨_, h⟩
    exact hlast h
  · intro h
    have hl := congrArg List.length h
    cases n with
    | nil => exact absurd rfl hne
    | cons a t =>
      simp only [joinPath, List.length_append, List.length_cons, List.length_nil] at hl
      omega

theorem mem_kidNames (dents : List Dirent) (dent : Dirent) (hd : dent ∈ dents)
    (hdot : isDotOrDotDot dent.d_name = false) (hty : isDirType dent.d_type = true) :
    dent.d_name ∈ kidNames dents := by
  simp only [kidNames, List.mem_map, List.mem_filter]
  exact ⟨dent, ⟨hd, by simp [hdot, hty]⟩, rfl⟩

/-- Every path listed below a child path starts with that child path. -/
theorem listing_below (sys : Sys) (depth : Nat) :
    ∀ (b n : Str) (own : List Str), n ≠ [] → '/' ∉ n →
      listing sys depth (joinPath b n) = some own →
      (∀ d ∈ own, wellNamed ((sys.opendir d).getD [])) →
      ∀ e ∈ own, Below (joinPath b n) e := by
  induction depth with
  | zero =>
    intro b n own _ _ h
    simp [listing] at h
  | succ depth ih =>
    intro b n own hne hn h hnames e he
    obtain ⟨hs, hroot⟩ := stripSlash_joinPath b n hne hn
    simp only [listing, hs, if_neg hroot] at h
    rcases ho : sys.opendir (joinPath b n) with _ | dents
    · simp only [ho, Option.some.injEq] at h
      rw [← h] at he
      cases he
    · simp only [ho, Option.map_eq_some'] at h
      obtain ⟨kids, hkids, rfl⟩ := h
      rcases List.mem_cons.mp he with rfl | he
      · exact ⟨[], by simp, Or.inl rfl⟩
      · obtain ⟨dent, hd, hdot, hty, own2, hown2, he2⟩ :=
          mem_listKids _ _ dents kids hkids e he
        have hwn := hnames (joinPath b n) (List.mem_cons_self _ _)
        rw [ho] at hwn
        have hgood := hwn.2 dent.d_name (mem_kidNames dents dent hd hdot hty)
        have hsub : ∀ d ∈ own2, wellNamed ((sys.opendir d).getD []) := by
          intro d hdm
          exact hnames d (List.mem_cons_of_mem _
            (listKids_subset _ _ dents kids hkids dent hd hdot hty own2 hown2 d hdm))
        exact below_of_below_child _ _ _
          (ih (joinPath b n) dent.d_name own2 hgood.1 hgood.2 hown2 hsub e he2)

theorem listKids_nodup (f : Str → Option (List Str)) (b : Str) (dents : List Dirent) :
    ∀ ks, listKids f b dents = some ks → (kidNames dents).Nodup →
      (∀ n ∈ kidNames dents, n ≠ [] ∧ '/' ∉ n) →
      (∀ dent ∈ dents, isDotOrDotDot dent.d_name = false → isDirType dent.d_type = true →
        ∀ own, f (joinPath b dent.d_name) = some own →
          own.Nodup ∧ ∀ e ∈ own, Below (joinPath b dent.d_name) e) →
      ks.Nodup := by
  induction dents with
  | nil =>
    intro ks h _ _ _
    simp only [listKids, Option.some.injEq] at h
    rw [← h]
    exact List.nodup_nil
  | cons dent rest ih =>
    intro ks h hnd hgood hkid
    have hkid2 : ∀ d2 ∈ rest, isDotOrDotDot d2.d_name = false → isDirType d2.d_type = true →
        ∀ own, f (joinPath b d2.d_name) = some own →
          own.Nodup ∧ ∀ e ∈ own, Below (joinPath b d2.d_name) e :=
      fun d2 hd2 => hkid d2 (List.mem_cons_of_mem _ hd2)
    simp only [listKids] at h
    by_cases hc : isDotOrDotDot dent.d_name = true ∨ isDirType dent.d_type = false
    · have hkn : kidNames (dent :: rest) = kidNames rest := by
        rcases hc with hc | hc <;> simp [kidNames, List.filter_cons, hc]
      simp only [hc, if_true] at h
      rw [hkn] at hnd hgood
      exact ih ks h hnd hgood hkid2
    · have hdot : isDotOrDotDot dent.d_name = false := by
        cases hx : isDotOrDotDot dent.d_name
        · rfl
        · exact absurd (Or.inl hx) hc
      have hty : isDirType dent.d_type = true := by
        cases hx : isDirType dent.d_type
        · exact absurd (Or.inr hx) hc
        · rfl
      have hkn : kidNames (dent :: rest) = dent.d_name :: kidNames rest := by
        simp [kidNames, List.filter_cons, hdot, hty]
      simp only [hc, if_false] at h
      rw [hkn] at hnd hgood
      obtain ⟨hnotin, hnd2⟩ := List.nodup_cons.mp hnd
      rcases h1 : f (joinPath b dent.d_name) with _ | own
      · simp [h1] at h
      · rcases h2 : listKids f b rest with _ | others
        · simp [h1, h2] at h
        · simp only [h1, h2, Option.some.injEq] at h
          rw [← h]
          obtain ⟨hownnd, hownbelow⟩ := hkid dent (List.mem_cons_self _ _) hdot hty own h1
          have hothers := ih others h2 hnd2
            (fun n hn => hgood n (List.mem_cons_of_mem _ hn)) hkid2
          refine List.nodup_append.mpr ⟨hownnd, hothers, ?_⟩
          intro e he1 he2
          obtain ⟨d2, hd2, hdot2, hty2, own2, hown2, hem⟩ := mem_listKids f b rest others h2 e he2
          have hn2 := mem_kidNames rest d2 hd2 hdot2 hty2
          have hne : dent.d_name ≠ d2.d_name := fun heq => hnotin (by rw [heq]; exact hn2)
          exact below_children_disjoint b dent.d_name d2.d_name e
            (hgood dent.d_name (List.mem_cons_self _ _)).2
            (hgood d2.d_name (List.mem_cons_of_mem _ hn2)).2 hne (hownbelow e he1)
            ((hkid2 d2 hd2 hdot2 hty2 own2 hown2).2 e hem)

/-- The listing of one root names no directory twice when the child directories
of every listed directory are named as a file system names them. -/
theorem listing_nodup (sys : Sys) (depth : Nat) :
    ∀ (p : Str) (own : List Str), listing sys depth p = some own →
      (∀ d ∈ own, wellNamed ((sys.opendir d).getD [])) → own.Nodup := by
  induction depth with
  | zero =>
    intro p own h
    simp [listing] at h
  | succ depth ih =>
    intro p own h hnames
    simp only [listing] at h
    rcases ho : sys.opendir (stripSlash p) with _ | dents
    · simp only [ho, Option.some.injEq] at h
      rw [← h]
      exact List.nodup_nil
    · simp only [ho, Option.map_eq_some'] at h
      obtain ⟨kids, hkids, rfl⟩ := h
      have hwn := hnames (stripSlash p) (List.mem_cons_self _ _)
      rw [ho] at hwn
      have hkid : ∀ dent ∈ dents, isDotOrDotDot dent.d_name = false →
          isDirType dent.d_type = true → ∀ own,
          listing sys depth (joinPath (if p = ['/'] then [] else stripSlash p) dent.d_name)
            = some own →
          own.Nodup ∧ ∀ e ∈ own,
            Below (joinPath (if p = ['/'] then [] else stripSlash p) dent.d_name) e := by
        intro dent hd hdot hty own hown
        have hgood := hwn.2 dent.d_name (mem_kidNames dents dent hd hdot hty)
        have hsub : ∀ d ∈ own, wellNamed ((sys.opendir d).getD []) := by
          intro d hdm
          exact hnames d (List.mem_cons_of_mem _
            (listKids_subset _ _ dents kids hkids dent hd hdot hty own hown d hdm))
        exact ⟨ih _ own hown hsub,
          listing_below sys depth _ dent.d_name own hgood.1 hgood.2 hown hsub⟩
      refine List.nodup_cons.mpr ⟨?_, listKids_nodup _ _ dents kids hkids hwn.1 hwn.2 hkid⟩
      intro hmem
      obtain ⟨dent, hd, hdot, hty, own, hown, he⟩ := mem_listKids _ _ dents kids hkids _ hmem
      have hgood := hwn.2 dent.d_name (mem_kidNames dents dent hd hdot hty)
      obtain ⟨r, hr, _⟩ := (hkid dent hd hdot hty own hown).2 _ he
      have hl := congrArg List.length hr
      by_cases hp : p = ['/']
      · subst hp
        have hn0 : dent.d_name.length ≠ 0 := fun h0 => hgood.1 (List.length_eq_zero.mp h0)
        simp only [if_true, joinPath, stripSlash, List.length_append, List.length_cons,
          List.length_nil, List.nil_append] at hl
        simp at hl
        omega
      · simp only [if_neg hp, joinPath, List.length_append, List.length_cons] at hl
        omega

theorem mem_listingRoots (sys : Sys) (depth : Nat) (roots : List Str) :
    ∀ l, listingRoots sys depth roots = some l → ∀ e ∈ l,
      ∃ r ∈ roots, e ∈ (listing sys depth r).getD [] := by
  induction roots with
  | nil =>
    intro l h e he
    simp only [listingRoots, Option.some.injEq] at h
    rw [← h] at he
    cases he
  | cons root roots ih =>
    intro l h e he
    simp only [listingRoots] at h
    rcases h1 : listing sys depth root with _ | own
    · simp [h1] at h
    · rcases h2 : listingRoots sys depth roots with _ | others
      · simp [h1, h2] at h
      · simp only [h1, h2, Option.some.injEq] at h
        rw [← h] at he
        rcases List.mem_append.mp he with he | he
        · exact ⟨root, List.mem_cons_self _ _, by rw [h1]; exact he⟩
        · obtain ⟨r, hr, hm⟩ := ih others h2 e he
          exact ⟨r, List.mem_cons_of_mem _ hr, hm⟩

theorem listingRoots_nodup (sys : Sys) (depth : Nat) (roots : List Str) :
    ∀ l, listingRoots sys depth roots = some l →
      (∀ d ∈ l, wellNamed ((sys.opendir d).getD [])) →
      disjointRoots sys depth roots → l.Nodup := by
  induction roots with
  | nil =>
    intro l h _ _
    simp only [listingRoots, Option.some.injEq] at h
    rw [← h]
    exact List.nodup_nil
  | cons root roots ih =>
    intro l h hnames hdisj
    simp only [listingRoots] at h
    rcases h1 : listing sys depth root with _ | own
    · simp [h1] at h
    · rcases h2 : listingRoots sys depth roots with _ | others
      · simp [h1, h2] at h
      · simp only [h1, h2, Option.some.injEq] at h
        rw [← h] at hnames ⊢
        obtain ⟨hhead, htail⟩ := List.pairwise_cons.mp hdisj
        refine List.nodup_append.mpr
          ⟨listing_nodup sys depth root own h1 (fun d hd => hnames d (List.mem_append_left _ hd)),
            ih others h2 (fun d hd => hnames d (List.mem_append_right _ hd)) htail, ?_⟩
        intro e he1 he2
        obtain ⟨r, hr, hm⟩ := mem_listingRoots sys depth roots others h2 e he2
        exact hhead r hr e (by rw [h1]; exact he1) hm

/-- C4 as stated fails for the root `/`: the program names the child `/usr`,
while parent, slash, name gives `//usr`.  (For the root `//`, stripped to `/`,
the program does name the child `//usr`.) -/
theorem discover_root_slash_counterexample :
    discover slashSys 3 ["/".toList] [] = some (true, ["/".toList, "/usr".toList])
    ∧ listingClaimed slashSys 3 "/".toList = some ["/".toList, "//usr".toList]
    ∧ discover slashSys 3 ["//".toList] [] = some (true, ["/".toList, "//usr".toList]) := by
  decide

/-- C4 (amended): when no insertion into the queue fails, the trees below the
roots have depth at most `depth`, every root is shorter than 4096 bytes and so
is every child path formed below a listed directory, the queue after the
discovery loop is the concatenation, root by root in argument order, of the
pre-order listings: an unopenable root contributes nothing and the later roots
are still processed; an openable root contributes its path with one trailing
slash removed, followed by the listings of its child directories under parent,
slash, name, or slash, name when the root is given as exactly `/`.  When in
addition the child directories of every listed directory have pairwise
distinct, non-empty, slash-free names and no directory is listed under two
roots, every directory is in the queue exactly once: K items for K
directories. -/
theorem discover_eq_listing (sys : Sys) (depth : Nat) (roots l : List Str)
    (halloc : ∀ p, sys.strdup p = true ∧ sys.ll_alloc p = true)
    (hl : listingRoots sys depth roots = some l)
    (hroots : ∀ r ∈ roots, r.length < PATH_SIZE)
    (hfit : ∀ d ∈ l, childPathsFit sys d) :
    (∀ fuel, depth ≤ fuel → discover sys fuel roots [] = some (true, l))
    ∧ ((∀ d ∈ l, wellNamed ((sys.opendir d).getD [])) → disjointRoots sys depth roots →
        l.Nodup ∧ l.length = l.toFinset.card) := by
  refine ⟨fun fuel hfuel => ?_, fun hnames hdisj => ?_⟩
  · have h := discover_append sys halloc depth fuel hfuel roots l [] hl hroots hfit
    simpa using h
  · have hnd := listingRoots_nodup sys depth roots l hl hnames hdisj
    exact ⟨hnd, (List.toFinset_card_of_nodup hnd).symm⟩

/-- Witness for C4 (amended): the unopenable root `locked/` and the root `root/`
of the tree `root/{a.c, b.txt, sub/{c.c}}`. -/
theorem discover_eq_listing_witness :
    (∀ fuel, 3 ≤ fuel →
      discover treeSys fuel twoRoots [] = some (true, ["root".toList, "root/sub".toList]))
    ∧ ["root".toList, "root/sub".toList].Nodup :=
  have h := discover_eq_listing treeSys 3 twoRoots ["root".toList, "root/sub".toList]
    (fun _ => ⟨rfl, rfl⟩) (by decide) (by decide) (by decide)
  ⟨h.1, (h.2 (by decide) (by decide)).1⟩

/-! ## Theorems: the order of the result set -/

theorem run_append (sys : Sys) (regexp : Str → Bool) (s1 s2 : List Nat) (p : Pool) :
    run sys regexp (s1 ++ s2) p = run sys regexp s2 (run sys regexp s1 p) := by
  simp [run, List.foldl_append]

theorem run_replicate_succ (sys : Sys) (regexp : Str → Bool) (k : Nat) (p : Pool) :
    run sys regexp (List.replicate (k + 1) 0) p
      = run sys regexp (List.replicate k 0) (step sys regexp p 0) := by
  simp [run, List.replicate_succ]

/-- The moves of a single thread inside `applyRe` end in the state the loop of
`applyRe` computes. -/
theorem run_scanning_eq_applyReLoop (sys : Sys) (regexp : Str → Bool) (dir : Str)
    (ll : List Str) (dents : List Dirent) :
    ∀ (ts : List Str) (held stat : Bool) (ts1 : List Str) (held1 : Bool),
      applyReLoop sys regexp dir dents ts held = some (stat, ts1, held1) →
      ∃ k, run sys regexp (List.replicate k 0) ⟨⟨ll, ts, held⟩, [.scanning dir dents]⟩
        = ⟨⟨ll, ts1, held1⟩, [if stat then .ready else .exited]⟩ := by
  induction dents with
  | nil =>
    intro ts held stat ts1 held1 h
    simp only [applyReLoop, Option.some.injEq, Prod.mk.injEq] at h
    obtain ⟨rfl, rfl, rfl⟩ := h
    exact ⟨1, rfl⟩
  | cons dent rest ih =>
    intro ts held stat ts1 held1 h
    simp only [applyReLoop] at h
    rcases hturn : applyReEntry sys regexp dir dent ts held
      with ⟨ts2, held2⟩ | ⟨ts2, held2⟩ | _ | _
    · simp only [hturn] at h
      obtain ⟨k, hk⟩ := ih ts2 held2 stat ts1 held1 h
      refine ⟨k + 1, ?_⟩
      rw [run_replicate_succ]
      have hstep : step sys regexp ⟨⟨ll, ts, held⟩, [.scanning dir (dent :: rest)]⟩ 0
          = ⟨⟨ll, ts2, held2⟩, [.scanning dir rest]⟩ := by
        simp [step, stepThread, hturn]
      rw [hstep, hk]
    · simp only [hturn, Option.some.injEq, Prod.mk.injEq] at h
      obtain ⟨rfl, rfl, rfl⟩ := h
      refine ⟨1, ?_⟩
      rw [run_replicate_succ]
      have hstep : step sys regexp ⟨⟨ll, ts, held⟩, [.scanning dir (dent :: rest)]⟩ 0
          = ⟨⟨ll, ts2, held2⟩, [.exited]⟩ := by
        simp [step, stepThread, hturn]
      rw [hstep]
      rfl
    · simp [hturn] at h
    · simp [hturn] at h

/-- A pool of one thread can reach exactly the state in which the function
`process` returns. -/
theorem run_single_eq_process (sys : Sys) (regexp : Str → Bool) (ll : List Str) :
    ∀ (ts : List Str) (held : Bool) (sh : Shared),
      process sys regexp ll ts held = some sh →
      ∃ k, run sys regexp (List.replicate k 0) ⟨⟨ll, ts, held⟩, [.ready]⟩ = ⟨sh, [.exited]⟩ := by
  induction ll with
  | nil =>
    intro ts held sh h
    simp only [process, Option.some.injEq] at h
    rw [← h]
    exact ⟨1, rfl⟩
  | cons sp rest ih =>
    intro ts held sh h
    simp only [process, applyRe] at h
    rcases ho : sys.opendir sp with _ | dents
    · simp only [ho, Bool.false_eq_true, if_false, Option.some.injEq] at h
      rw [← h]
      refine ⟨1, ?_⟩
      rw [run_replicate_succ]
      have hstep : step sys regexp ⟨⟨sp :: rest, ts, held⟩, [.ready]⟩ 0
          = ⟨⟨rest, ts, held⟩, [.exited]⟩ := by
        simp [step, stepThread, ll_removeFirst, ho]
      rw [hstep]
      rfl
    · simp only [ho] at h
      rcases hloop : applyReLoop sys regexp sp dents ts held with _ | ⟨stat, ts1, held1⟩
      · simp [hloop] at h
      · simp only [hloop] at h
        obtain ⟨k1, hk1⟩ := run_scanning_eq_applyReLoop sys regexp sp rest dents ts held stat
          ts1 held1 hloop
        have hstep : step sys regexp ⟨⟨sp :: rest, ts, held⟩, [.ready]⟩ 0
            = ⟨⟨rest, ts, held⟩, [.scanning sp dents]⟩ := by
          simp [step, stepThread, ll_removeFirst, ho]
        cases stat with
        | true =>
          simp only [if_true] at h hk1
          obtain ⟨k2, hk2⟩ := ih ts1 held1 sh h
          refine ⟨(1 + k1) + k2, ?_⟩
          rw [List.replicate_add, List.replicate_add, run_append,
            run_append]
          have h1 : run sys regexp (List.replicate 1 0) ⟨⟨sp :: rest, ts, held⟩, [.ready]⟩
              = ⟨⟨rest, ts, held⟩, [.scanning sp dents]⟩ := by
            rw [run_replicate_succ, hstep]
            rfl
          rw [h1, hk1, hk2]
        | false =>
          simp only [Bool.false_eq_true, if_false, Option.some.injEq] at h hk1
          refine ⟨1 + k1, ?_⟩
          rw [List.replicate_add, run_append]
          have h1 : run sys regexp (List.replicate 1 0) ⟨⟨sp :: rest, ts, held⟩, [.ready]⟩
              = ⟨⟨rest, ts, held⟩, [.scanning sp dents]⟩ := by
            rw [run_replicate_succ, hstep]
            rfl
          rw [h1, hk1, ← h]

/-! ## Theorems: the output of main -/

end FileCrawler
